import Mathlib

/-!
Verification of the textalyzer repository (indexer.py, author_search.py,
search.py, config.py) against its natural-language specification.

Python strings are modelled as `List Char`; Python functions used by the
claims are translated into executable Lean definitions below, each one
annotated with the source function it embeds.
-/

set_option maxHeartbeats 1000000

abbrev Str := List Char

/-- Python whitespace characters, as used by `str.strip()` and `str.split()`
(ASCII fragment: space, tab, newline, carriage return, vertical tab, form feed). -/
def pyIsSpace (c : Char) : Bool :=
  c = ' ' || c = '\t' || c = '\n' || c = '\r' || c = '\x0b' || c = '\x0c'

/-- Python `str.lower()` on a single character (ASCII case mapping). -/
def pyLowerChar (c : Char) : Char :=
  if c = 'A' then 'a' else if c = 'B' then 'b' else if c = 'C' then 'c'
  else if c = 'D' then 'd' else if c = 'E' then 'e' else if c = 'F' then 'f'
  else if c = 'G' then 'g' else if c = 'H' then 'h' else if c = 'I' then 'i'
  else if c = 'J' then 'j' else if c = 'K' then 'k' else if c = 'L' then 'l'
  else if c = 'M' then 'm' else if c = 'N' then 'n' else if c = 'O' then 'o'
  else if c = 'P' then 'p' else if c = 'Q' then 'q' else if c = 'R' then 'r'
  else if c = 'S' then 's' else if c = 'T' then 't' else if c = 'U' then 'u'
  else if c = 'V' then 'v' else if c = 'W' then 'w' else if c = 'X' then 'x'
  else if c = 'Y' then 'y' else if c = 'Z' then 'z' else c

/-- Python `str.lower()`. -/
def lowerStage (s : Str) : Str := s.map pyLowerChar

/-- Python `str.strip()`: drop leading and trailing whitespace. -/
def pyStrip (s : Str) : Str :=
  ((s.dropWhile pyIsSpace).reverse.dropWhile pyIsSpace).reverse

/-- Python `pat in s` for strings: `pat` occurs as a contiguous substring of `s`. -/
def containsSub : Str → Str → Bool
  | pat, [] => pat.isEmpty
  | pat, c :: rest => pat.isPrefixOf (c :: rest) || containsSub pat rest

/-- Prepend a character to the first piece of a split result. -/
def consFirst (c : Char) : List Str → List Str
  | [] => [[c]]
  | p :: ps => (c :: p) :: ps

/-- Python `s.split("\n\n")`: split on each non-overlapping occurrence of a
blank line, scanning left to right. -/
def splitBlank : Str → List Str
  | [] => [[]]
  | [c] => [[c]]
  | c :: d :: rest =>
    if c = '\n' && d = '\n' then [] :: splitBlank rest
    else consFirst c (splitBlank (d :: rest))

/-- Python `s.split(sep)` for a one-character separator. -/
def splitChar (sep : Char) : Str → List Str
  | [] => [[]]
  | c :: rest => if c = sep then [] :: splitChar sep rest else consFirst c (splitChar sep rest)

/-- Worker for `splitWs`: `cur` is the reversed current token. -/
def splitWsGo : Str → Str → List Str
  | [], cur => if cur = [] then [] else [cur.reverse]
  | c :: rest, cur =>
    if pyIsSpace c then
      if cur = [] then splitWsGo rest [] else cur.reverse :: splitWsGo rest []
    else splitWsGo rest (c :: cur)

/-- Python `s.split()` (no argument): whitespace runs separate tokens, empty
tokens are discarded. -/
def splitWs (s : Str) : List Str := splitWsGo s []

/-- Python `sep.join(pieces)`. -/
def joinSep (sep : Str) : List Str → Str
  | [] => []
  | [x] => x
  | x :: y :: t => x ++ sep ++ joinSep sep (y :: t)

/-- Greatest index `j ≤ n` at which `pat` occurs in `s`, scanning downward;
used to model Python `s.rsplit(pat, 1)`. -/
def lastOccFrom (pat s : Str) : Nat → Option Nat
  | 0 => if pat.isPrefixOf s then some 0 else none
  | n + 1 =>
    if pat.isPrefixOf (s.drop (n + 1)) then some (n + 1) else lastOccFrom pat s n

/-- Index of the last occurrence of `pat` in `s`, if any. -/
def lastOcc (pat s : Str) : Option Nat := lastOccFrom pat s s.length

-- Sanity checks of the Python semantics of the primitives above.
example : splitBlank "a\n\n\nb".toList = ["a".toList, "\nb".toList] := by decide
example : splitBlank "".toList = [[]] := by decide
example : splitChar '&' "a&&b".toList = ["a".toList, [], "b".toList] := by decide
example : splitWs "  a  bc ".toList = ["a".toList, "bc".toList] := by decide
example : pyStrip "  a b\n".toList = "a b".toList := by decide
example : containsSub "bc".toList "abcd".toList = true := by decide
example : containsSub "ca".toList "abcd".toList = false := by decide
example : lastOcc " by ".toList "Stand by Me by Stephen King".toList = some 11 := by decide

/-!
config.py: `MIN_PARAGRAPH_LENGTH`, `SKIP_PARAGRAPH_PATTERNS`, and the
boundary-marker regexes `START_MARKER_RE` / `END_MARKER_RE`.

The regex `\*+\s*START\s+(?:OF\s+)?(?:THIS\s+|THE\s+)?PROJECT\s+GUTENBERG.*?\*+`
(case-insensitive, likewise with END) is embedded as an executable matcher.
On this particular pattern Python regex backtracking is deterministic except
for the two optional groups, which are tried in regex order below:
each greedy `\*+` / `\s+` / `\s*` is followed by a required character that is
neither an asterisk nor whitespace, so only the maximal run can succeed, and
the final lazy `.*?` followed by greedy `\*+` matches up to the end of the
maximal asterisk run starting at the first asterisk reachable without
crossing a newline (`.` does not match `\n`).
-/

def MIN_PARAGRAPH_LENGTH : Nat := 4

def SKIP_PARAGRAPH_PATTERNS : List Str :=
  ["[Illustration".toList, "[Blank Page]".toList, "[**".toList,
   "[Transcriber\x27s Note".toList, "[Editor\x27s Note".toList,
   "[Technical Note".toList, "[_Copyright".toList]

/-- Case-insensitive match of the literal `w` at the head of `cs` (regex
literal under `re.IGNORECASE`); returns the rest of the input. -/
def eatLitCI : Str → Str → Option Str
  | [], cs => some cs
  | _ :: _, [] => none
  | w :: ws, c :: cs => if pyLowerChar c = pyLowerChar w then eatLitCI ws cs else none

/-- Regex `\*+` (greedy): at least one asterisk, then the whole run. -/
def eatStars1 : Str → Option Str
  | '*' :: cs => some (cs.dropWhile (fun c => c = '*'))
  | _ => none

/-- Regex `\s*` (greedy). -/
def eatWs0 (cs : Str) : Str := cs.dropWhile pyIsSpace

/-- Regex `\s+` (greedy). -/
def eatWs1 : Str → Option Str
  | [] => none
  | c :: cs => if pyIsSpace c then some (cs.dropWhile pyIsSpace) else none

/-- Regex `.*?\*+`: lazily scan forward (never across `\n`) to the first
asterisk, then consume the whole asterisk run. -/
def eatLazyDotStars : Str → Option Str
  | [] => none
  | '*' :: cs => some (cs.dropWhile (fun c => c = '*'))
  | '\n' :: _ => none
  | _ :: cs => eatLazyDotStars cs

/-- Regex tail `PROJECT\s+GUTENBERG.*?\*+`. -/
def markerTail (cs : Str) : Option Str := do
  let r ← eatLitCI "PROJECT".toList cs
  let r ← eatWs1 r
  let r ← eatLitCI "GUTENBERG".toList r
  eatLazyDotStars r

/-- Regex `(?:THIS\s+|THE\s+)?` followed by the tail, alternatives tried in
regex order with full backtracking. -/
def markerOptThe (cs : Str) : Option Str :=
  match (do let r ← eatLitCI "THIS".toList cs; let r ← eatWs1 r; markerTail r) with
  | some r => some r
  | none =>
    match (do let r ← eatLitCI "THE".toList cs; let r ← eatWs1 r; markerTail r) with
    | some r => some r
    | none => markerTail cs

/-- Regex `(?:OF\s+)?` followed by the rest, with backtracking. -/
def markerOptOf (cs : Str) : Option Str :=
  match (do let r ← eatLitCI "OF".toList cs; let r ← eatWs1 r; markerOptThe r) with
  | some r => some r
  | none => markerOptThe cs

/-- Attempt to match the whole marker pattern (with keyword `kw`, i.e.
START or END) at the head of `cs`; returns the unconsumed rest. -/
def matchMarkerAt (kw : Str) (cs : Str) : Option Str := do
  let r ← eatStars1 cs
  let r := eatWs0 r
  let r ← eatLitCI kw r
  let r ← eatWs1 r
  markerOptOf r

/-- `re.search` for the marker pattern: leftmost match, returned as
`(start offset, end offset)`. -/
def searchMarkerAux (kw : Str) : Str → Nat → Option (Nat × Nat)
  | [], _ => none
  | c :: rest, i =>
    match matchMarkerAt kw (c :: rest) with
    | some r => some (i, i + ((c :: rest).length - r.length))
    | none => searchMarkerAux kw rest (i + 1)

/-- `START_MARKER_RE.search(text)` / `END_MARKER_RE.search(text)` depending
on the keyword. -/
def searchMarker (kw : Str) (text : Str) : Option (Nat × Nat) :=
  searchMarkerAux kw text 0

def startKw : Str := "START".toList

def endKw : Str := "END".toList

-- Sanity checks of the marker matcher against the regex semantics.
example : searchMarker startKw "*** START OF THE PROJECT GUTENBERG EBOOK A ***\nx".toList
    = some (0, 46) := by decide
example : searchMarker startKw "** start of project gutenberg **".toList = some (0, 32) := by
  decide
example : searchMarker startKw "START OF THE PROJECT GUTENBERG".toList = none := by decide
example : searchMarker endKw "*END OF PROJECT GUTENBERG*".toList = some (0, 26) := by decide
example : searchMarker endKw "*END OF PROJECT\nGUTENBERG*".toList = some (0, 26) := by decide
example : searchMarker endKw "*END OF PROJECT GUTENBERG\n*".toList = none := by decide
example : searchMarker startKw "x *START OF PROJECT GUTENBERG*".toList = some (2, 30) := by
  decide

/-!
indexer.py: `extract_book_content`, `_should_skip_paragraph`,
`split_into_paragraphs`, `parse_author_title`.
-/

/-- indexer.py `extract_book_content`: content strictly between the end of
the first start-marker match and the start of the first end-marker match,
stripped; `none` when a marker is missing or the region is empty-or-reversed. -/
def extract_book_content (text : Str) : Option Str :=
  match searchMarker startKw text, searchMarker endKw text with
  | some sm, some em =>
    if em.1 ≤ sm.2 then none
    else some (pyStrip ((text.drop sm.2).take (em.1 - sm.2)))
  | _, _ => none

/-- indexer.py `_should_skip_paragraph`. -/
def should_skip_paragraph (text : Str) : Bool :=
  SKIP_PARAGRAPH_PATTERNS.any (fun pat => containsSub pat text)

/-- indexer.py `split_into_paragraphs`. -/
def split_into_paragraphs (content : Str) : List Str :=
  ((splitBlank content).filter
    (fun p => decide (MIN_PARAGRAPH_LENGTH ≤ (pyStrip p).length) && !should_skip_paragraph p)).map
    pyStrip

/-- indexer.py `parse_author_title`: split at the last occurrence of
`" by "`, returning `(author, title)`. -/
def parse_author_title (full_title : Str) : Str × Str :=
  match lastOcc " by ".toList full_title with
  | some i => (pyStrip (full_title.drop (i + 4)), pyStrip (full_title.take i))
  | none => ([], full_title)

example : parse_author_title "Stand by Me by Stephen King".toList
    = ("Stephen King".toList, "Stand by Me".toList) := by decide
example : parse_author_title "Untitled Work".toList = ([], "Untitled Work".toList) := by decide
example : extract_book_content "*START OF PROJECT GUTENBERG*ab*END OF PROJECT GUTENBERG*".toList
    = some "ab".toList := by decide

/-!
author_search.py: `normalize_author_name`, the author filter inside
`search_books_by_author`, its pagination loop, and deduplication by title.
-/

/-- Stage 1 of `normalize_author_name`: `name[: name.index("(")]` when a
parenthesis is present. -/
def parenCutStage (s : Str) : Str :=
  if '(' ∈ s then s.takeWhile (fun c => c ≠ '(') else s

/-- Stage 2 of `normalize_author_name`: on `name.split(",", 1)` rebuild
`f"{parts[1].strip()} {parts[0].strip()}"` when a comma is present. -/
def commaReorderStage (s : Str) : Str :=
  if ',' ∈ s then
    pyStrip ((s.dropWhile (fun c => c ≠ ',')).tail) ++ ' ' :: pyStrip (s.takeWhile (fun c => c ≠ ','))
  else s

/-- Stage 3 of `normalize_author_name`: `name.replace(".", " ")`. -/
def replaceDotStage (s : Str) : Str := s.map (fun c => if c = '.' then ' ' else c)

/-- Stage 4 of `normalize_author_name`: `" ".join(name.split())`. -/
def collapseWsStage (s : Str) : Str := joinSep [' '] (splitWs s)

/-- author_search.py `normalize_author_name`. -/
def normalize_author_name (s : Str) : Str :=
  lowerStage (collapseWsStage (replaceDotStage (commaReorderStage (parenCutStage s))))

/-- The author test applied to each catalog author inside
`search_books_by_author` (author_search.py line 113):
`normalized_search in normalize_author_name(author_name)`. -/
def author_name_matches (search candidate : Str) : Bool :=
  containsSub (normalize_author_name search) (normalize_author_name candidate)

/-- Modelled from the spec for comparison with the code (`matches` in §4.1):
every whitespace token of the normalized search name is a member of the set
of whitespace tokens of the normalized candidate name. -/
def spec_token_subset_matches (search candidate : Str) : Prop :=
  ∀ t ∈ splitWs (normalize_author_name search), t ∈ splitWs (normalize_author_name candidate)

instance (s c : Str) : Decidable (spec_token_subset_matches s c) := by
  unfold spec_token_subset_matches; infer_instance

/-- A catalog book summary as consumed by `search_books_by_author`. -/
structure Book where
  id : Int
  title : Str
  authors : List Str
deriving DecidableEq, Repr

/-- One Gutendex response page: the `results` list and whether a `next`
continuation link is present. -/
structure PageResp where
  results : List Book
  next : Bool

/-- The per-page filter in `search_books_by_author`: keep each book some of
whose authors passes the normalized-containment test (the inner
`for book_author ... break` loop). -/
def pageMatches (ns : Str) (resp : PageResp) : List Book :=
  resp.results.filter (fun b => b.authors.any (fun a => containsSub ns (normalize_author_name a)))

/-- The pagination loop of `search_books_by_author`.  `server n` is the
response to the `(n+1)`-st HTTP fetch; `page` and `fetched` mirror the
`page` counter and the number of `httpx.get` calls made so far; returns the
accumulated `all_books` and the total number of fetches.  The loop is
entered with a non-null `url`, increments `page`, breaks before fetching
once `page > max_pages = 100`, and otherwise fetches and follows `next`. -/
def search_pages (server : Nat → PageResp) (ns : Str) (page fetched : Nat) (acc : List Book) :
    List Book × Nat :=
  if 100 < page + 1 then (acc, fetched)
  else if (server fetched).next then
    search_pages server ns (page + 1) (fetched + 1) (acc ++ pageMatches ns (server fetched))
  else (acc ++ pageMatches ns (server fetched), fetched + 1)
termination_by 100 - page
decreasing_by omega

/-- One step of the dedup-by-title dict build in `search_books_by_author`
(`seen_titles[title] = book` keeps insertion order, replacing in place). -/
def upsertByTitle : List Book → Book → List Book
  | [], b => [b]
  | x :: xs, b =>
    if x.title = b.title then (if x.id < b.id then b :: xs else x :: xs)
    else x :: upsertByTitle xs b

/-- The final dedup pass of `search_books_by_author`: `list(seen_titles.values())`
after inserting every accumulated book. -/
def dedupByTitle (books : List Book) : List Book :=
  books.foldl upsertByTitle []

/-- author_search.py `search_books_by_author`, with the HTTP layer abstracted
into `server`; returns the deduplicated matches and the number of fetches. -/
def search_books_by_author (server : Nat → PageResp) (author : Str) : List Book × Nat :=
  let ns := normalize_author_name author
  let r := search_pages server ns 0 0 []
  (dedupByTitle r.1, r.2)

example : normalize_author_name "Sayers, Dorothy L. (Dorothy Leigh)".toList
    = "dorothy l sayers".toList := by decide
example : normalize_author_name "Forster, E.M.".toList = "e m forster".toList := by decide
example : author_name_matches "Dorothy L. Sayers".toList "Sayers, W. C. Berwick".toList
    = false := by decide
example : author_name_matches "Dorothy L. Sayers".toList
    "Sayers, Dorothy L. (Dorothy Leigh)".toList = true := by decide

/-!
search.py: `parse_query_line`.
-/

/-- Boolean operator of a parsed query. -/
inductive QueryOp where
  | and
  | or
deriving DecidableEq, Repr

/-- The non-comment part of a query line: `line.split("#", 1)[0]`
(the whole line when no `#` is present). -/
def nonCommentPart (line : Str) : Str := line.takeWhile (fun c => c ≠ '#')

/-- The comment of a query line: `line.split("#", 1)[1].strip()` when a `#`
is present, else the empty string. -/
def commentPart (line : Str) : Str := pyStrip ((line.dropWhile (fun c => c ≠ '#')).tail)

/-- The stripped non-comment part of a query line (`line` after
`line.split("#", 1)[0]` and `line.strip()` in `parse_query_line`). -/
def queryBody (line : Str) : Str := pyStrip (nonCommentPart line)

/-- The term list built by `parse_query_line` for a one-character operator:
split on the operator, strip each piece, and keep the non-empty ones
(`terms = [t.strip() for t in line.split(op)]` then `[t for t in terms if t]`). -/
def queryTerms (op : Char) (body : Str) : List Str :=
  ((splitChar op body).map pyStrip).filter (fun t => t ≠ [])

/-- search.py `parse_query_line`: returns `(terms, operator, comment)` or a
`ValueError` message.  Python's `line.split("#", 1)` is embedded as
`nonCommentPart` / `commentPart` (when `#` is absent, `commentPart` is the
empty string, exactly as in the source's else branch), and the final
"no terms" check is carried into each operator branch unchanged. -/
def parse_query_line (line : Str) : Except Str (List Str × QueryOp × Str) :=
  if queryBody line = [] then .error "Empty query".toList
  else if '&' ∈ queryBody line ∧ '|' ∈ queryBody line then
    .error "Cannot mix operators".toList
  else if '&' ∈ queryBody line then
    if queryTerms '&' (queryBody line) = [] then .error "No search terms found".toList
    else .ok (queryTerms '&' (queryBody line), .and, commentPart line)
  else if '|' ∈ queryBody line then
    if queryTerms '|' (queryBody line) = [] then .error "No search terms found".toList
    else .ok (queryTerms '|' (queryBody line), .or, commentPart line)
  else
    if (([pyStrip (queryBody line)].map pyStrip).filter (fun t => t ≠ [])) = [] then
      .error "No search terms found".toList
    else .ok (([pyStrip (queryBody line)].map pyStrip).filter (fun t => t ≠ []),
      .and, commentPart line)

deriving instance DecidableEq for Except

/-- Whether a parse ended in a raised `ValueError`. -/
def isErr : Except Str (List Str × QueryOp × Str) → Bool
  | .error _ => true
  | .ok _ => false

example : parse_query_line "term1 & term2 # note".toList
    = .ok (["term1".toList, "term2".toList], .and, "note".toList) := by decide
example : isErr (parse_query_line "term1 & term2 | term3".toList) = true := by decide
example : parse_query_line "foo &".toList = .ok (["foo".toList], .and, []) := by decide
example : parse_query_line "a & & b".toList = .ok (["a".toList, "b".toList], .and, []) := by
  decide
example : isErr (parse_query_line "& &".toList) = true := by decide
example : parse_query_line "a | b".toList = .ok (["a".toList, "b".toList], .or, []) := by decide

/-!
Helper lemmas about the Python string primitives.
-/

theorem isPrefixOf_iff {l1 l2 : Str} : l1.isPrefixOf l2 = true ↔ l1 <+: l2 :=
  List.isPrefixOf_iff_prefix

theorem takeWhile_isPrefix (p : Char → Bool) (l : Str) : l.takeWhile p <+: l :=
  List.takeWhile_prefix p

theorem dropWhile_head_not {p : Char → Bool} :
    ∀ (s : Str) {c : Char} {t : Str}, s.dropWhile p = c :: t → p c = false := by
  intro s
  induction s with
  | nil => intro c t h; simp [List.dropWhile] at h
  | cons a s ih =>
    intro c t h
    by_cases hp : p a
    · rw [List.dropWhile_cons_of_pos hp] at h; exact ih h
    · rw [List.dropWhile_cons_of_neg hp] at h
      cases h; simpa using hp

theorem dropWhile_idem {p : Char → Bool} (s : Str) :
    (s.dropWhile p).dropWhile p = s.dropWhile p := by
  cases h : s.dropWhile p with
  | nil => simp
  | cons c t => rw [List.dropWhile_cons_of_neg]; simp [dropWhile_head_not s h]

theorem getLast?_dropWhile {p : Char → Bool} :
    ∀ s : Str, s.dropWhile p ≠ [] → (s.dropWhile p).getLast? = s.getLast? := by
  intro s
  induction s with
  | nil => intro h; simp at h
  | cons a s ih =>
    intro h
    by_cases hp : p a
    · rw [List.dropWhile_cons_of_pos hp] at h ⊢
      rw [ih h]
      cases s with
      | nil => simp [List.dropWhile] at h
      | cons b t => exact (List.getLast?_cons_cons).symm
    · rw [List.dropWhile_cons_of_neg hp]

theorem pyStrip_suffix_part (s : Str) : pyStrip s <+: s.dropWhile pyIsSpace := by
  unfold pyStrip
  have h := List.dropWhile_suffix (l := (s.dropWhile pyIsSpace).reverse) pyIsSpace
  rw [← List.reverse_prefix] at h
  simpa using h

theorem pyStrip_isInfix (s : Str) : pyStrip s <:+: s :=
  (pyStrip_suffix_part s).isInfix.trans (List.dropWhile_suffix pyIsSpace).isInfix

theorem mem_of_mem_pyStrip {c : Char} {s : Str} (h : c ∈ pyStrip s) : c ∈ s :=
  (pyStrip_isInfix s).subset h

theorem pyStrip_head_not_space {s : Str} {c : Char} {t : Str} (h : pyStrip s = c :: t) :
    pyIsSpace c = false := by
  have hp := pyStrip_suffix_part s
  rw [h] at hp
  obtain ⟨r, hr⟩ := hp
  exact dropWhile_head_not s (by rw [← hr, List.cons_append])

theorem pyStrip_getLast_not_space {s : Str} {c : Char} (h : (pyStrip s).getLast? = some c) :
    pyIsSpace c = false := by
  unfold pyStrip at h
  rw [List.getLast?_reverse] at h
  cases hd : (s.dropWhile pyIsSpace).reverse.dropWhile pyIsSpace with
  | nil => rw [hd] at h; simp at h
  | cons b t =>
    rw [hd] at h
    simp only [List.head?_cons, Option.some.injEq] at h
    rw [← h]
    exact dropWhile_head_not (s.dropWhile pyIsSpace).reverse hd

theorem pyStrip_of_clean {t : Str} (h1 : t.dropWhile pyIsSpace = t)
    (h2 : t.reverse.dropWhile pyIsSpace = t.reverse) : pyStrip t = t := by
  unfold pyStrip
  rw [h1, h2, List.reverse_reverse]

theorem dropWhile_pyStrip_eq_self (s : Str) : (pyStrip s).dropWhile pyIsSpace = pyStrip s := by
  cases h : pyStrip s with
  | nil => simp
  | cons c t => rw [List.dropWhile_cons_of_neg]; simp [pyStrip_head_not_space h]

theorem dropWhile_reverse_pyStrip_eq_self (s : Str) :
    (pyStrip s).reverse.dropWhile pyIsSpace = (pyStrip s).reverse := by
  cases h : (pyStrip s).reverse with
  | nil => simp
  | cons c t =>
    rw [List.dropWhile_cons_of_neg]
    have hc : (pyStrip s).getLast? = some c := by
      rw [← List.head?_reverse, h]; rfl
    simp [pyStrip_getLast_not_space hc]

theorem pyStrip_idem (s : Str) : pyStrip (pyStrip s) = pyStrip s :=
  pyStrip_of_clean (dropWhile_pyStrip_eq_self s) (dropWhile_reverse_pyStrip_eq_self s)

theorem mem_pyStrip_of_not_space {c : Char} {s : Str} (hc : pyIsSpace c = false)
    (h : c ∈ s) : c ∈ pyStrip s := by
  have aux : ∀ t : Str, c ∈ t → c ∈ t.dropWhile pyIsSpace := by
    intro t
    induction t with
    | nil => intro h; simp at h
    | cons a t ih =>
      intro hm
      by_cases hp : pyIsSpace a
      · rw [List.dropWhile_cons_of_pos hp]
        rcases List.mem_cons.mp hm with rfl | hm2
        · rw [hp] at hc; cases hc
        · exact ih hm2
      · rw [List.dropWhile_cons_of_neg hp]; exact hm
  unfold pyStrip
  rw [List.mem_reverse]
  exact aux _ (by rw [List.mem_reverse]; exact aux _ h)

theorem pyStrip_eq_nil_of_all_space {s : Str} (h : ∀ c ∈ s, pyIsSpace c = true) :
    pyStrip s = [] := by
  unfold pyStrip
  have h1 : s.dropWhile pyIsSpace = [] := List.dropWhile_eq_nil_iff.mpr (by simpa using h)
  rw [h1]
  rfl

theorem dropWhile_append_all {p : Char → Bool} :
    ∀ {a : Str} (b : Str), (∀ c ∈ a, p c = true) → (a ++ b).dropWhile p = b.dropWhile p := by
  intro a
  induction a with
  | nil => intro b _; rfl
  | cons x a ih =>
    intro b h
    have hx : p x := h x (by simp)
    rw [List.cons_append, List.dropWhile_cons_of_pos hx]
    exact ih b (fun c hc => h c (by simp [hc]))

theorem pyStrip_wrap {a b mid : Str} (ha : ∀ c ∈ a, pyIsSpace c = true)
    (hb : ∀ c ∈ b, pyIsSpace c = true) (hmid : pyStrip mid = mid) :
    pyStrip (a ++ mid ++ b) = mid := by
  have hd1 : (a ++ mid ++ b).dropWhile pyIsSpace = (mid ++ b).dropWhile pyIsSpace := by
    rw [List.append_assoc]; exact dropWhile_append_all _ ha
  cases mid with
  | nil =>
    apply pyStrip_eq_nil_of_all_space
    intro c hc
    rcases List.mem_append.mp (by simpa using hc) with h | h
    · exact ha c h
    · exact hb c h
  | cons m0 mt =>
    have hhead : pyIsSpace m0 = false := pyStrip_head_not_space hmid
    have hd2 : ((m0 :: mt) ++ b).dropWhile pyIsSpace = (m0 :: mt) ++ b := by
      rw [List.cons_append, List.dropWhile_cons_of_neg (by simp [hhead])]
    have h5 := dropWhile_reverse_pyStrip_eq_self (m0 :: mt)
    rw [hmid] at h5
    have hrev : ((m0 :: mt) ++ b).reverse.dropWhile pyIsSpace = (m0 :: mt).reverse := by
      rw [List.reverse_append]
      rw [dropWhile_append_all (m0 :: mt).reverse (fun c hc => hb c (List.mem_reverse.mp hc))]
      exact h5
    unfold pyStrip
    rw [hd1, hd2, hrev, List.reverse_reverse]

theorem pyIsSpace_space : pyIsSpace ' ' = true := rfl

theorem splitWsGo_nil (cur : Str) :
    splitWsGo [] cur = if cur = [] then [] else [cur.reverse] := rfl

theorem splitWsGo_cons (c : Char) (r cur : Str) :
    splitWsGo (c :: r) cur =
      if pyIsSpace c then
        (if cur = [] then splitWsGo r [] else cur.reverse :: splitWsGo r [])
      else splitWsGo r (c :: cur) := rfl

theorem splitWsGo_mem (s : Str) :
    ∀ (cur t : Str), t ∈ splitWsGo s cur → ∀ c ∈ t, c ∈ s ∨ c ∈ cur := by
  induction s with
  | nil =>
    intro cur t ht c hc
    unfold splitWsGo at ht
    by_cases h : cur = []
    · simp [h] at ht
    · simp only [h, if_false, List.mem_singleton] at ht
      subst ht
      right; exact List.mem_reverse.mp hc
  | cons a s ih =>
    intro cur t ht c hc
    unfold splitWsGo at ht
    by_cases hp : pyIsSpace a
    · rw [if_pos hp] at ht
      by_cases hcur : cur = []
      · rw [if_pos hcur] at ht
        rcases ih [] t ht c hc with h | h
        · left; exact List.mem_cons_of_mem a h
        · simp at h
      · rw [if_neg hcur] at ht
        rcases List.mem_cons.mp ht with rfl | ht2
        · right; exact List.mem_reverse.mp hc
        · rcases ih [] t ht2 c hc with h | h
          · left; exact List.mem_cons_of_mem a h
          · simp at h
    · rw [if_neg hp] at ht
      rcases ih (a :: cur) t ht c hc with h | h
      · left; exact List.mem_cons_of_mem a h
      · rcases List.mem_cons.mp h with rfl | h2
        · left; exact List.mem_cons_self c s
        · right; exact h2

theorem splitWsGo_tokens (s : Str) :
    ∀ (cur : Str), (∀ c ∈ cur, pyIsSpace c = false) →
      ∀ t ∈ splitWsGo s cur, t ≠ [] ∧ ∀ c ∈ t, pyIsSpace c = false := by
  induction s with
  | nil =>
    intro cur hcur t ht
    unfold splitWsGo at ht
    by_cases h : cur = []
    · simp [h] at ht
    · simp only [h, if_false, List.mem_singleton] at ht
      subst ht
      refine ⟨by simpa using h, ?_⟩
      intro c hc; exact hcur c (List.mem_reverse.mp hc)
  | cons a s ih =>
    intro cur hcur t ht
    unfold splitWsGo at ht
    by_cases hp : pyIsSpace a
    · rw [if_pos hp] at ht
      by_cases hcurn : cur = []
      · rw [if_pos hcurn] at ht
        exact ih [] (by simp) t ht
      · rw [if_neg hcurn] at ht
        rcases List.mem_cons.mp ht with rfl | ht2
        · refine ⟨by simpa using hcurn, ?_⟩
          intro c hc; exact hcur c (List.mem_reverse.mp hc)
        · exact ih [] (by simp) t ht2
    · rw [if_neg hp] at ht
      refine ih (a :: cur) ?_ t ht
      intro c hc
      rcases List.mem_cons.mp hc with rfl | h2
      · simpa using hp
      · exact hcur c h2

theorem splitWsGo_append_token {t : Str} (ht : ∀ c ∈ t, pyIsSpace c = false) :
    ∀ (r cur : Str), splitWsGo (t ++ r) cur = splitWsGo r (t.reverse ++ cur) := by
  induction t with
  | nil => intro r cur; simp
  | cons a t ih =>
    intro r cur
    have ha : pyIsSpace a = false := ht a (by simp)
    rw [List.cons_append, splitWsGo_cons, if_neg (by simp [ha])]
    rw [ih (fun c hc => ht c (List.mem_cons_of_mem a hc)) r (a :: cur)]
    simp

theorem splitWsGo_space_cons (r cur : Str) (hcur : cur ≠ []) :
    splitWsGo (' ' :: r) cur = cur.reverse :: splitWsGo r [] := by
  rw [splitWsGo_cons, if_pos pyIsSpace_space, if_neg hcur]

theorem splitWs_joinSep :
    ∀ ts : List Str, (∀ t ∈ ts, t ≠ [] ∧ ∀ c ∈ t, pyIsSpace c = false) →
      splitWs (joinSep [' '] ts) = ts := by
  intro ts
  induction ts with
  | nil => intro _; rfl
  | cons x ts ih =>
    intro h
    have hx := h x (by simp)
    cases ts with
    | nil =>
      show splitWs (joinSep [' '] [x]) = [x]
      unfold splitWs
      have h1 : joinSep [' '] [x] = x ++ [] := by simp [joinSep]
      rw [h1, splitWsGo_append_token hx.2 [] [], List.append_nil, splitWsGo_nil]
      rw [if_neg (by simpa using hx.1)]
      simp
    | cons y ts2 =>
      show splitWs (x ++ [' '] ++ joinSep [' '] (y :: ts2)) = x :: y :: ts2
      unfold splitWs
      rw [List.append_assoc, splitWsGo_append_token hx.2, List.append_nil]
      rw [List.singleton_append, splitWsGo_space_cons _ _ (by simpa using hx.1)]
      rw [List.reverse_reverse]
      have := ih (fun t htm => h t (List.mem_cons_of_mem x htm))
      unfold splitWs at this
      rw [this]

theorem splitWsGo_map {f : Char → Char} (hf : ∀ c, pyIsSpace (f c) = pyIsSpace c) :
    ∀ (s cur : Str), splitWsGo (s.map f) (cur.map f) = (splitWsGo s cur).map (List.map f) := by
  intro s
  induction s with
  | nil =>
    intro cur
    rw [List.map_nil, splitWsGo_nil, splitWsGo_nil]
    by_cases h : cur = []
    · simp [h]
    · rw [if_neg (by simpa [List.map_eq_nil_iff] using h), if_neg h]
      simp
  | cons a s ih =>
    intro cur
    rw [List.map_cons, splitWsGo_cons, splitWsGo_cons, hf a]
    by_cases hp : pyIsSpace a
    · rw [if_pos hp, if_pos hp]
      by_cases hcur : cur = []
      · rw [if_pos (by simp [hcur]), if_pos hcur]
        have := ih []
        simpa using this
      · rw [if_neg (by simpa [List.map_eq_nil_iff] using hcur), if_neg hcur]
        have := ih []
        simp only [List.map_nil] at this
        rw [this]
        simp
    · rw [if_neg hp, if_neg hp]
      have := ih (a :: cur)
      simpa using this

theorem splitWs_map {f : Char → Char} (hf : ∀ c, pyIsSpace (f c) = pyIsSpace c) (s : Str) :
    splitWs (s.map f) = (splitWs s).map (List.map f) := by
  have := splitWsGo_map hf s []
  simpa [splitWs] using this

theorem map_joinSep {f : Char → Char} (hf : f ' ' = ' ') :
    ∀ ts : List Str, (joinSep [' '] ts).map f = joinSep [' '] (ts.map (List.map f)) := by
  intro ts
  induction ts with
  | nil => rfl
  | cons x ts ih =>
    cases ts with
    | nil => rfl
    | cons y ts2 =>
      show (x ++ [' '] ++ joinSep [' '] (y :: ts2)).map f
          = x.map f ++ [' '] ++ joinSep [' '] ((y :: ts2).map (List.map f))
      rw [List.map_append, List.map_append, ih]
      simp [hf]

theorem mem_joinSep {c : Char} :
    ∀ ts : List Str, c ∈ joinSep [' '] ts → c = ' ' ∨ ∃ t ∈ ts, c ∈ t := by
  intro ts
  induction ts with
  | nil => intro h; exact absurd h (by simp [joinSep])
  | cons x ts ih =>
    cases ts with
    | nil =>
      intro h
      right; exact ⟨x, by simp, h⟩
    | cons y ts2 =>
      intro h
      have heq : joinSep [' '] (x :: y :: ts2) = x ++ (' ' :: joinSep [' '] (y :: ts2)) := by
        rw [show joinSep [' '] (x :: y :: ts2) = x ++ [' '] ++ joinSep [' '] (y :: ts2) from rfl,
          List.append_assoc]
        rfl
      rw [heq] at h
      rcases List.mem_append.mp h with h1 | h1
      · right; exact ⟨x, by simp, h1⟩
      · rcases List.mem_cons.mp h1 with rfl | h2
        · left; rfl
        · rcases ih h2 with h3 | ⟨t, ht, hc2⟩
          · left; exact h3
          · right; exact ⟨t, List.mem_cons_of_mem x ht, hc2⟩

theorem splitWs_tokens (s : Str) :
    ∀ t ∈ splitWs s, t ≠ [] ∧ ∀ c ∈ t, pyIsSpace c = false :=
  splitWsGo_tokens s [] (by simp)

theorem collapseWs_idem (s : Str) : collapseWsStage (collapseWsStage s) = collapseWsStage s := by
  unfold collapseWsStage
  rw [splitWs_joinSep (splitWs s) (splitWs_tokens s)]

theorem pyLowerChar_space : pyLowerChar ' ' = ' ' := rfl

/-- Uppercase ASCII letters. -/
def upperLetters : Str := "ABCDEFGHIJKLMNOPQRSTUVWXYZ".toList

/-- Lowercase ASCII letters. -/
def lowerLetters : Str := "abcdefghijklmnopqrstuvwxyz".toList

theorem pyLowerChar_not_upper {c : Char} (h : c ∉ upperLetters) : pyLowerChar c = c := by
  have hne : ∀ d ∈ upperLetters, ¬(c = d) := fun d hd he => h (he.symm ▸ hd)
  unfold pyLowerChar
  rw [if_neg (hne 'A' (by decide)), if_neg (hne 'B' (by decide)),
    if_neg (hne 'C' (by decide)), if_neg (hne 'D' (by decide)),
    if_neg (hne 'E' (by decide)), if_neg (hne 'F' (by decide)),
    if_neg (hne 'G' (by decide)), if_neg (hne 'H' (by decide)),
    if_neg (hne 'I' (by decide)), if_neg (hne 'J' (by decide)),
    if_neg (hne 'K' (by decide)), if_neg (hne 'L' (by decide)),
    if_neg (hne 'M' (by decide)), if_neg (hne 'N' (by decide)),
    if_neg (hne 'O' (by decide)), if_neg (hne 'P' (by decide)),
    if_neg (hne 'Q' (by decide)), if_neg (hne 'R' (by decide)),
    if_neg (hne 'S' (by decide)), if_neg (hne 'T' (by decide)),
    if_neg (hne 'U' (by decide)), if_neg (hne 'V' (by decide)),
    if_neg (hne 'W' (by decide)), if_neg (hne 'X' (by decide)),
    if_neg (hne 'Y' (by decide)), if_neg (hne 'Z' (by decide))]

theorem pyLowerChar_maps_upper : ∀ c ∈ upperLetters, pyLowerChar c ∈ lowerLetters := by decide

theorem pyLowerChar_fix_lower : ∀ c ∈ lowerLetters, pyLowerChar c = c := by decide

theorem upper_not_space : ∀ c ∈ upperLetters, pyIsSpace c = false := by decide

theorem lower_not_space : ∀ c ∈ lowerLetters, pyIsSpace c = false := by decide

theorem pyLowerChar_idem (c : Char) : pyLowerChar (pyLowerChar c) = pyLowerChar c := by
  by_cases h : c ∈ upperLetters
  · exact pyLowerChar_fix_lower _ (pyLowerChar_maps_upper c h)
  · simp [pyLowerChar_not_upper h]

theorem pyIsSpace_pyLowerChar (c : Char) : pyIsSpace (pyLowerChar c) = pyIsSpace c := by
  by_cases h : c ∈ upperLetters
  · rw [lower_not_space _ (pyLowerChar_maps_upper c h), upper_not_space c h]
  · rw [pyLowerChar_not_upper h]

theorem pyLowerChar_eq_of_not_lower {c t : Char} (ht : t ∉ lowerLetters)
    (h : pyLowerChar c = t) : c = t := by
  by_cases hc : c ∈ upperLetters
  · exact absurd (h ▸ pyLowerChar_maps_upper c hc) ht
  · rw [pyLowerChar_not_upper hc] at h; exact h

theorem lowerStage_idem (s : Str) : lowerStage (lowerStage s) = lowerStage s := by
  unfold lowerStage
  rw [List.map_map]
  exact List.map_congr_left (fun c _ => pyLowerChar_idem c)

theorem collapseWs_lower_comm (s : Str) :
    collapseWsStage (lowerStage s) = lowerStage (collapseWsStage s) := by
  unfold collapseWsStage lowerStage
  rw [splitWs_map pyIsSpace_pyLowerChar, ← map_joinSep pyLowerChar_space]

theorem mem_parenCut {c : Char} {s : Str} (h : c ∈ parenCutStage s) : c ∈ s := by
  unfold parenCutStage at h
  by_cases hp : '(' ∈ s
  · rw [if_pos hp] at h
    exact (takeWhile_isPrefix _ _).subset h
  · rwa [if_neg hp] at h

theorem paren_notMem_parenCut (s : Str) : '(' ∉ parenCutStage s := by
  unfold parenCutStage
  by_cases hp : '(' ∈ s
  · rw [if_pos hp]
    intro hmem
    have := List.mem_takeWhile_imp hmem
    simp at this
  · rw [if_neg hp]; exact hp

theorem mem_commaReorder {c : Char} {s : Str} (h : c ∈ commaReorderStage s) : c ∈ s ∨ c = ' ' := by
  unfold commaReorderStage at h
  by_cases hc : ',' ∈ s
  · rw [if_pos hc] at h
    rcases List.mem_append.mp h with h1 | h1
    · left
      have h2 : c ∈ (s.dropWhile (fun c => c ≠ ',')).tail := mem_of_mem_pyStrip h1
      exact (List.dropWhile_suffix _).subset ((List.tail_suffix _).subset h2)
    · rcases List.mem_cons.mp h1 with rfl | h2
      · right; rfl
      · left
        exact (takeWhile_isPrefix _ _).subset (mem_of_mem_pyStrip h2)
  · rw [if_neg hc] at h; left; exact h

theorem mem_replaceDot {c : Char} {s : Str} (h : c ∈ replaceDotStage s) : c ∈ s ∨ c = ' ' := by
  unfold replaceDotStage at h
  rcases List.mem_map.mp h with ⟨d, hd, hdc⟩
  by_cases hdot : d = '.'
  · rw [if_pos hdot] at hdc; right; exact hdc.symm
  · rw [if_neg hdot] at hdc; left; exact hdc ▸ hd

theorem dot_notMem_replaceDot (s : Str) : '.' ∉ replaceDotStage s := by
  unfold replaceDotStage
  intro h
  rcases List.mem_map.mp h with ⟨d, _, hdc⟩
  by_cases hdot : d = '.'
  · rw [if_pos hdot] at hdc; exact absurd hdc (by decide)
  · rw [if_neg hdot] at hdc; exact hdot hdc

theorem mem_collapseWs {c : Char} {s : Str} (h : c ∈ collapseWsStage s) : c ∈ s ∨ c = ' ' := by
  unfold collapseWsStage at h
  rcases mem_joinSep _ h with h1 | ⟨t, ht, hc⟩
  · right; exact h1
  · rcases splitWsGo_mem s [] t ht c hc with h2 | h2
    · left; exact h2
    · simp at h2

theorem parenCut_eq_self {s : Str} (h : '(' ∉ s) : parenCutStage s = s := by
  unfold parenCutStage; rw [if_neg h]

theorem commaReorder_eq_self {s : Str} (h : ',' ∉ s) : commaReorderStage s = s := by
  unfold commaReorderStage; rw [if_neg h]

theorem replaceDot_eq_self {s : Str} (h : '.' ∉ s) : replaceDotStage s = s := by
  unfold replaceDotStage
  rw [show s.map (fun c => if c = '.' then ' ' else c) = s.map id from
    List.map_congr_left (fun c hc => by
      rw [if_neg (fun he : c = '.' => h (he ▸ hc))]; rfl)]
  exact List.map_id s

theorem notMem_lower_collapse {t : Char} (htl : t ∉ lowerLetters) (hsp : t ≠ ' ')
    {z : Str} (hz : t ∉ z) : t ∉ lowerStage (collapseWsStage z) := by
  intro hmem
  rcases List.mem_map.mp hmem with ⟨d, hd, hdc⟩
  have hd2 : d = t := pyLowerChar_eq_of_not_lower htl hdc
  subst hd2
  rcases mem_collapseWs hd with h1 | h1
  · exact hz h1
  · exact hsp h1

theorem comma_notMem_commaReorder {s : Str} (h : s.count ',' ≤ 1) :
    ',' ∉ commaReorderStage s := by
  unfold commaReorderStage
  by_cases hc : ',' ∈ s
  · rw [if_pos hc]
    intro hmem
    cases hd : s.dropWhile (fun c => c ≠ ',') with
    | nil =>
      have hall := List.dropWhile_eq_nil_iff.mp hd
      have := hall ',' hc
      simp at this
    | cons d rest =>
      have hdc : d = ',' := by
        have := dropWhile_head_not s hd
        simpa using this
      subst hdc
      have hsplit : s = s.takeWhile (fun c => c ≠ ',') ++ ',' :: rest := by
        rw [← hd]; exact (List.takeWhile_append_dropWhile _ _).symm
      have htake0 : (s.takeWhile (fun c => c ≠ ',')).count ',' = 0 := by
        rw [List.count_eq_zero]
        intro hmem2
        have := List.mem_takeWhile_imp hmem2
        simp at this
      have hcount : s.count ',' = 1 + rest.count ',' := by
        conv_lhs => rw [hsplit]
        rw [List.count_append, htake0, List.count_cons]
        simp [Nat.add_comm]
      have hrest0 : rest.count ',' = 0 := by omega
      have hrest : ',' ∉ rest := List.count_eq_zero.mp hrest0
      rw [hd] at hmem
      rcases List.mem_append.mp hmem with h1 | h1
      · exact hrest (mem_of_mem_pyStrip h1)
      · rcases List.mem_cons.mp h1 with h2 | h2
        · exact absurd h2 (by decide)
        · have h3 : ',' ∈ s.takeWhile (fun c => c ≠ ',') := mem_of_mem_pyStrip h2
          have h4 := List.mem_takeWhile_imp h3
          simp at h4
  · rw [if_neg hc]; exact hc

theorem lower_collapse_idem (z : Str) :
    lowerStage (collapseWsStage (lowerStage (collapseWsStage z)))
      = lowerStage (collapseWsStage z) := by
  rw [collapseWs_lower_comm (collapseWsStage z), collapseWs_idem, lowerStage_idem]

theorem containsSub_iff_isInfix {pat s : Str} : containsSub pat s = true ↔ pat <:+: s := by
  induction s with
  | nil =>
    unfold containsSub
    rw [List.infix_nil]
    cases pat <;> simp
  | cons c rest ih =>
    unfold containsSub
    rw [List.infix_cons_iff, Bool.or_eq_true, isPrefixOf_iff, ih]

theorem containsSub_false_of_isInfix {pat s t : Str} (h : containsSub pat s = false)
    (hts : t <:+: s) : containsSub pat t = false := by
  rw [← Bool.not_eq_true] at h ⊢
  intro hc
  exact h (containsSub_iff_isInfix.mpr ((containsSub_iff_isInfix.mp hc).trans hts))

/-!
Helper lemmas about `lastOcc` (for `parse_author_title`).
-/

theorem lastOccFrom_none {pat s : Str} :
    ∀ n, lastOccFrom pat s n = none → ∀ j ≤ n, ¬ pat <+: s.drop j := by
  intro n
  induction n with
  | zero =>
    intro h j hj hpfx
    unfold lastOccFrom at h
    by_cases hp : pat.isPrefixOf s
    · rw [if_pos hp] at h; cases h
    · interval_cases j
      exact hp (isPrefixOf_iff.mpr (by simpa using hpfx))
  | succ n ih =>
    intro h j hj hpfx
    unfold lastOccFrom at h
    by_cases hp : pat.isPrefixOf (s.drop (n + 1))
    · rw [if_pos hp] at h; cases h
    · rw [if_neg hp] at h
      rcases Nat.lt_or_ge j (n + 1) with hlt | hge
      · exact ih h j (by omega) hpfx
      · have : j = n + 1 := by omega
        subst this
        exact hp (isPrefixOf_iff.mpr hpfx)

theorem lastOccFrom_some {pat s : Str} :
    ∀ n k, lastOccFrom pat s n = some k →
      pat <+: s.drop k ∧ ∀ j ≤ n, pat <+: s.drop j → j ≤ k := by
  intro n
  induction n with
  | zero =>
    intro k h
    unfold lastOccFrom at h
    by_cases hp : pat.isPrefixOf s
    · rw [if_pos hp] at h
      cases h
      refine ⟨by simpa using isPrefixOf_iff.mp hp, ?_⟩
      intro j hj _; omega
    · rw [if_neg hp] at h; cases h
  | succ n ih =>
    intro k h
    unfold lastOccFrom at h
    by_cases hp : pat.isPrefixOf (s.drop (n + 1))
    · rw [if_pos hp] at h
      cases h
      refine ⟨isPrefixOf_iff.mp hp, ?_⟩
      intro j hj _; omega
    · rw [if_neg hp] at h
      obtain ⟨h1, h2⟩ := ih k h
      refine ⟨h1, ?_⟩
      intro j hj hpfx
      rcases Nat.lt_or_ge j (n + 1) with hlt | hge
      · exact h2 j (by omega) hpfx
      · have : j = n + 1 := by omega
        subst this
        exact absurd (isPrefixOf_iff.mpr hpfx) hp

theorem drop_long_eq_nil {s : Str} {j : Nat} (h : s.length ≤ j) : s.drop j = [] := by
  simp [List.drop_eq_nil_iff]
  omega

theorem lastOcc_none {pat s : Str} (hne : pat ≠ []) (h : lastOcc pat s = none) :
    ∀ j, ¬ pat <+: s.drop j := by
  intro j hpfx
  rcases le_or_lt j s.length with hj | hj
  · exact lastOccFrom_none s.length h j hj hpfx
  · rw [drop_long_eq_nil (by omega)] at hpfx
    exact hne (List.prefix_nil.mp hpfx)

theorem lastOcc_some {pat s : Str} {k : Nat} (hne : pat ≠ []) (h : lastOcc pat s = some k) :
    pat <+: s.drop k ∧ ∀ j, pat <+: s.drop j → j ≤ k := by
  obtain ⟨h1, h2⟩ := lastOccFrom_some s.length k h
  refine ⟨h1, ?_⟩
  intro j hpfx
  rcases le_or_lt j s.length with hj | hj
  · exact h2 j hj hpfx
  · rw [drop_long_eq_nil (by omega)] at hpfx
    exact absurd (List.prefix_nil.mp hpfx) hne

/-!
Helper lemmas about the pagination loop (for the page ceiling).
-/

theorem search_pages_count (server : Nat → PageResp) (ns : Str) :
    ∀ n page fetched acc, page + n = 100 →
      (search_pages server ns page fetched acc).2 ≤ fetched + n ∧
      ((∀ m, (server m).next = true) →
        (search_pages server ns page fetched acc).2 = fetched + n) := by
  intro n
  induction n with
  | zero =>
    intro page fetched acc hpn
    rw [search_pages]
    rw [if_pos (by omega)]
    simp
  | succ n ih =>
    intro page fetched acc hpn
    rw [search_pages]
    rw [if_neg (by omega)]
    by_cases hn : (server fetched).next
    · rw [if_pos hn]
      obtain ⟨hle, heq⟩ := ih (page + 1) (fetched + 1)
        (acc ++ pageMatches ns (server fetched)) (by omega)
      exact ⟨by omega, fun hall => by rw [heq hall]; omega⟩
    · rw [if_neg hn]
      refine ⟨by show fetched + 1 ≤ fetched + (n + 1); omega, ?_⟩
      intro hall
      exact absurd (hall fetched) (by simpa using hn)

/-!
Helper lemmas about `splitBlank` and `joinSep` (for the extraction round trip).
-/

/-- The blank-line separator `"\n\n"`. -/
def nl2 : Str := ['\n', '\n']

theorem splitBlank_cons2 (c d : Char) (rest : Str) :
    splitBlank (c :: d :: rest) =
      if c = '\n' && d = '\n' then [] :: splitBlank rest
      else consFirst c (splitBlank (d :: rest)) := rfl

theorem splitBlank_append_sep :
    ∀ (p t : Str), ¬ nl2 <:+: (p ++ ['\n']) →
      splitBlank (p ++ '\n' :: '\n' :: t) = p :: splitBlank t := by
  intro p
  induction p with
  | nil =>
    intro t _
    rw [List.nil_append, splitBlank_cons2, if_pos (by simp)]
  | cons c p2 ih =>
    intro t hp
    cases p2 with
    | nil =>
      have hc : ¬(c = '\n') := by
        intro hc
        subst hc
        exact hp ⟨[], [], rfl⟩
      rw [List.cons_append, List.nil_append, splitBlank_cons2,
        if_neg (by simp [hc]), splitBlank_cons2, if_pos (by simp)]
      rfl
    | cons c2 p3 =>
      have hcc : ¬(c = '\n' ∧ c2 = '\n') := by
        rintro ⟨rfl, rfl⟩
        exact hp ⟨[], p3 ++ ['\n'], by simp [nl2]⟩
      have hp2 : ¬ nl2 <:+: ((c2 :: p3) ++ ['\n']) := by
        intro h
        exact hp (List.infix_cons h)
      rw [List.cons_append, List.cons_append, splitBlank_cons2,
        if_neg (by simpa using hcc), ← List.cons_append, ih t hp2]
      rfl

theorem splitBlank_no_sep : ∀ p : Str, ¬ nl2 <:+: p → splitBlank p = [p] := by
  intro p
  induction p with
  | nil => intro _; rfl
  | cons c p2 ih =>
    intro hp
    cases p2 with
    | nil => rfl
    | cons d p3 =>
      have hcc : ¬(c = '\n' ∧ d = '\n') := by
        rintro ⟨rfl, rfl⟩
        exact hp ⟨[], p3, rfl⟩
      rw [splitBlank_cons2, if_neg (by simpa using hcc),
        ih (fun h => hp (List.infix_cons h))]
      rfl

theorem splitBlank_joinSep :
    ∀ ps : List Str, ps ≠ [] → (∀ p ∈ ps, ¬ nl2 <:+: (p ++ ['\n'])) →
      splitBlank (joinSep nl2 ps) = ps := by
  intro ps
  induction ps with
  | nil => intro h _; exact absurd rfl h
  | cons p ps2 ih =>
    intro _ h
    cases ps2 with
    | nil =>
      show splitBlank p = [p]
      apply splitBlank_no_sep
      intro hin
      exact h p (by simp) (hin.trans (List.prefix_append p ['\n']).isInfix)
    | cons q ps3 =>
      show splitBlank (p ++ nl2 ++ joinSep nl2 (q :: ps3)) = p :: q :: ps3
      rw [List.append_assoc]
      rw [show nl2 ++ joinSep nl2 (q :: ps3) = '\n' :: '\n' :: joinSep nl2 (q :: ps3) from rfl]
      rw [splitBlank_append_sep p _ (h p (by simp))]
      rw [ih (by simp) (fun r hr => h r (List.mem_cons_of_mem p hr))]

theorem joinSep_ne_nil {q : Str} (hq : q ≠ []) (ps : List Str) :
    joinSep nl2 (q :: ps) ≠ [] := by
  cases ps with
  | nil => exact hq
  | cons r ps2 =>
    show q ++ nl2 ++ joinSep nl2 (r :: ps2) ≠ []
    rw [List.append_assoc]
    exact List.append_ne_nil_of_left_ne_nil hq _

theorem joinSep_getLast?_mem :
    ∀ (ps : List Str) (p : Str), (∀ q ∈ p :: ps, q ≠ []) →
      ∃ q ∈ p :: ps, (joinSep nl2 (p :: ps)).getLast? = q.getLast? := by
  intro ps
  induction ps with
  | nil => intro p _; exact ⟨p, by simp, rfl⟩
  | cons q ps3 ih =>
    intro p hne
    obtain ⟨r, hr, heq⟩ := ih q (fun x hx => hne x (List.mem_cons_of_mem p hx))
    refine ⟨r, List.mem_cons_of_mem p hr, ?_⟩
    show (p ++ nl2 ++ joinSep nl2 (q :: ps3)).getLast? = r.getLast?
    rw [List.append_assoc,
      List.getLast?_append_of_ne_nil _ (by
        rw [show nl2 ++ joinSep nl2 (q :: ps3) = '\n' :: '\n' :: joinSep nl2 (q :: ps3) from rfl]
        simp),
      show nl2 ++ joinSep nl2 (q :: ps3) = nl2 ++ joinSep nl2 (q :: ps3) from rfl,
      List.getLast?_append_of_ne_nil _ (joinSep_ne_nil (hne q (by simp)) ps3)]
    exact heq

theorem trimmed_head_not_space {p : Str} (h : pyStrip p = p) :
    ∀ c, p.head? = some c → pyIsSpace c = false := by
  intro c hc
  cases p with
  | nil => simp at hc
  | cons a t =>
    simp only [List.head?_cons, Option.some.injEq] at hc
    subst hc
    exact pyStrip_head_not_space h

theorem trimmed_getLast_not_space {p : Str} (h : pyStrip p = p) :
    ∀ c, p.getLast? = some c → pyIsSpace c = false := by
  intro c hc
  exact pyStrip_getLast_not_space (s := p) (by rw [h]; exact hc)

theorem dropWhile_eq_self_of_head_not {p : Char → Bool} {s : Str}
    (h : ∀ c, s.head? = some c → p c = false) : s.dropWhile p = s := by
  cases s with
  | nil => rfl
  | cons a t => rw [List.dropWhile_cons_of_neg (by simp [h a rfl])]

theorem pyStrip_joinSep (ps : List Str) (hps : ps ≠ [])
    (h : ∀ p ∈ ps, p ≠ [] ∧ pyStrip p = p) :
    pyStrip (joinSep nl2 ps) = joinSep nl2 ps := by
  cases ps with
  | nil => exact absurd rfl hps
  | cons p ps2 =>
    apply pyStrip_of_clean
    · apply dropWhile_eq_self_of_head_not
      intro c hc
      have hp := h p (by simp)
      have hhd : (joinSep nl2 (p :: ps2)).head? = p.head? := by
        cases ps2 with
        | nil => rfl
        | cons q ps3 =>
          show (p ++ nl2 ++ joinSep nl2 (q :: ps3)).head? = p.head?
          rw [List.append_assoc, List.head?_append_of_ne_nil _ hp.1]
      exact trimmed_head_not_space hp.2 c (by rw [← hhd]; exact hc)
    · apply dropWhile_eq_self_of_head_not
      intro c hc
      rw [List.head?_reverse] at hc
      obtain ⟨q, hq, heq⟩ := joinSep_getLast?_mem ps2 p (fun x hx => (h x hx).1)
      exact trimmed_getLast_not_space (h q hq).2 c (by rw [← heq]; exact hc)

theorem should_skip_eq_false_iff {p : Str} :
    should_skip_paragraph p = false ↔ ∀ pat ∈ SKIP_PARAGRAPH_PATTERNS, ¬ pat <:+: p := by
  unfold should_skip_paragraph
  rw [List.any_eq_false]
  constructor
  · intro h pat hpat hin
    have := h pat hpat
    exact this (containsSub_iff_isInfix.mpr hin)
  · intro h pat hpat hc
    exact h pat hpat (containsSub_iff_isInfix.mp hc)

theorem no_sep_pad {p : Str} (htrim : pyStrip p = p) (hnosep : ¬ nl2 <:+: p) :
    ¬ nl2 <:+: (p ++ ['\n']) := by
  intro h
  obtain ⟨s, t, heq⟩ := h
  rcases List.eq_nil_or_concat t with rfl | ⟨t2, x, rfl⟩
  · rw [List.append_nil] at heq
    have heq2 : (s ++ ['\n']) ++ ['\n'] = p ++ ['\n'] := by
      rw [← heq]; simp [nl2]
    have hsp := List.append_cancel_right heq2
    have hlast : p.getLast? = some '\n' := by
      rw [← hsp]; exact List.getLast?_concat _
    have := trimmed_getLast_not_space htrim '\n' hlast
    simp [pyIsSpace] at this
  · rw [List.concat_eq_append] at heq
    have heq2 : (s ++ nl2 ++ t2) ++ [x] = p ++ ['\n'] := by
      rw [← heq]; simp
    obtain ⟨h1, _⟩ := List.append_inj' heq2 rfl
    exact hnosep ⟨s, t2, h1⟩

theorem mem_split_into_paragraphs {content p : Str} (h : p ∈ split_into_paragraphs content) :
    ∃ q ∈ splitBlank content, p = pyStrip q ∧ MIN_PARAGRAPH_LENGTH ≤ (pyStrip q).length ∧
      should_skip_paragraph q = false := by
  unfold split_into_paragraphs at h
  rcases List.mem_map.mp h with ⟨q, hq, rfl⟩
  rcases List.mem_filter.mp hq with ⟨hq1, hq2⟩
  rw [Bool.and_eq_true] at hq2
  exact ⟨q, hq1, rfl, of_decide_eq_true hq2.1, by simpa using hq2.2⟩

/-!
Helper lemmas about dedup-by-title (for `search_books_by_author`).
-/

theorem upsert_mem {seen : List Book} {b k : Book} :
    k ∈ upsertByTitle seen b → k ∈ seen ∨ k = b := by
  induction seen with
  | nil => intro h; right; simpa [upsertByTitle] using h
  | cons x xs ih =>
    intro h
    unfold upsertByTitle at h
    by_cases ht : x.title = b.title
    · rw [if_pos ht] at h
      by_cases hid : x.id < b.id
      · rw [if_pos hid] at h
        rcases List.mem_cons.mp h with rfl | h2
        · right; rfl
        · left; exact List.mem_cons_of_mem x h2
      · rw [if_neg hid] at h
        left; exact h
    · rw [if_neg ht] at h
      rcases List.mem_cons.mp h with rfl | h2
      · left; exact List.mem_cons_self _ _
      · rcases ih h2 with h3 | h3
        · left; exact List.mem_cons_of_mem x h3
        · right; exact h3

theorem upsert_titles_eq (seen : List Book) (b : Book) :
    (upsertByTitle seen b).map Book.title =
      if b.title ∈ seen.map Book.title then seen.map Book.title
      else seen.map Book.title ++ [b.title] := by
  induction seen with
  | nil => simp [upsertByTitle]
  | cons x xs ih =>
    unfold upsertByTitle
    by_cases ht : x.title = b.title
    · rw [if_pos ht]
      have hmem : b.title ∈ (x :: xs).map Book.title := by simp [← ht]
      rw [if_pos hmem]
      by_cases hid : x.id < b.id
      · rw [if_pos hid]; simp [ht]
      · rw [if_neg hid]
    · rw [if_neg ht]
      by_cases hmem : b.title ∈ xs.map Book.title
      · have : b.title ∈ (x :: xs).map Book.title := by simp [hmem]
        rw [if_pos this]
        simp only [List.map_cons]
        rw [ih, if_pos hmem]
      · have : b.title ∉ (x :: xs).map Book.title := by
          simp only [List.map_cons, List.mem_cons]
          push_neg
          exact ⟨fun he => ht he.symm, hmem⟩
        rw [if_neg this]
        simp only [List.map_cons]
        rw [ih, if_neg hmem]
        simp

theorem upsert_titles_nodup {seen : List Book} (h : (seen.map Book.title).Nodup) (b : Book) :
    ((upsertByTitle seen b).map Book.title).Nodup := by
  rw [upsert_titles_eq]
  by_cases hmem : b.title ∈ seen.map Book.title
  · rwa [if_pos hmem]
  · rw [if_neg hmem]
    simp [List.nodup_append, h, hmem]

theorem foldl_upsert_titles_nodup :
    ∀ (books : List Book) (seen : List Book), (seen.map Book.title).Nodup →
      ((books.foldl upsertByTitle seen).map Book.title).Nodup := by
  intro books
  induction books with
  | nil => intro seen h; simpa using h
  | cons b bs ih =>
    intro seen h
    rw [List.foldl_cons]
    exact ih _ (upsert_titles_nodup h b)

theorem foldl_upsert_mem :
    ∀ (books : List Book) (seen : List Book) (k : Book),
      k ∈ books.foldl upsertByTitle seen → k ∈ seen ∨ k ∈ books := by
  intro books
  induction books with
  | nil => intro seen k h; left; simpa using h
  | cons b bs ih =>
    intro seen k h
    rw [List.foldl_cons] at h
    rcases ih _ k h with h2 | h2
    · rcases upsert_mem h2 with h3 | h3
      · left; exact h3
      · right; exact h3 ▸ List.mem_cons_self b bs
    · right; exact List.mem_cons_of_mem b h2

theorem upsert_dominates {seen : List Book} (b : Book) :
    ∀ y ∈ seen, ∃ k ∈ upsertByTitle seen b, k.title = y.title ∧ y.id ≤ k.id := by
  induction seen with
  | nil => intro y h; simp at h
  | cons x xs ih =>
    intro y hy
    unfold upsertByTitle
    by_cases ht : x.title = b.title
    · rw [if_pos ht]
      rcases List.mem_cons.mp hy with rfl | hy2
      · by_cases hid : y.id < b.id
        · rw [if_pos hid]
          exact ⟨b, List.mem_cons_self b xs, by rw [ht], by omega⟩
        · rw [if_neg hid]
          exact ⟨y, List.mem_cons_self y xs, rfl, le_refl _⟩
      · by_cases hid : x.id < b.id
        · rw [if_pos hid]
          exact ⟨y, List.mem_cons_of_mem b hy2, rfl, le_refl _⟩
        · rw [if_neg hid]
          exact ⟨y, List.mem_cons_of_mem x hy2, rfl, le_refl _⟩
    · rw [if_neg ht]
      rcases List.mem_cons.mp hy with rfl | hy2
      · exact ⟨y, List.mem_cons_self y _, rfl, le_refl _⟩
      · obtain ⟨k, hk, hkt, hki⟩ := ih y hy2
        exact ⟨k, List.mem_cons_of_mem x hk, hkt, hki⟩

theorem upsert_self_dominated (seen : List Book) (b : Book) :
    ∃ k ∈ upsertByTitle seen b, k.title = b.title ∧ b.id ≤ k.id := by
  induction seen with
  | nil => exact ⟨b, by simp [upsertByTitle], rfl, le_refl _⟩
  | cons x xs ih =>
    unfold upsertByTitle
    by_cases ht : x.title = b.title
    · rw [if_pos ht]
      by_cases hid : x.id < b.id
      · rw [if_pos hid]
        exact ⟨b, List.mem_cons_self b xs, rfl, le_refl _⟩
      · rw [if_neg hid]
        exact ⟨x, List.mem_cons_self x xs, ht, by omega⟩
    · rw [if_neg ht]
      obtain ⟨k, hk, hkt, hki⟩ := ih
      exact ⟨k, List.mem_cons_of_mem x hk, hkt, hki⟩

theorem foldl_upsert_dominates :
    ∀ (books : List Book) (seen : List Book),
      (∀ y ∈ seen, ∃ k ∈ books.foldl upsertByTitle seen, k.title = y.title ∧ y.id ≤ k.id) ∧
      (∀ b ∈ books, ∃ k ∈ books.foldl upsertByTitle seen, k.title = b.title ∧ b.id ≤ k.id) := by
  intro books
  induction books with
  | nil =>
    intro seen
    refine ⟨fun y hy => ⟨y, by simpa using hy, rfl, le_refl _⟩, ?_⟩
    intro b hb; simp at hb
  | cons b bs ih =>
    intro seen
    constructor
    · intro y hy
      rw [List.foldl_cons]
      obtain ⟨k1, hk1, hk1t, hk1i⟩ := upsert_dominates b y hy
      obtain ⟨k2, hk2, hk2t, hk2i⟩ := (ih (upsertByTitle seen b)).1 k1 hk1
      exact ⟨k2, hk2, hk2t.trans hk1t, le_trans hk1i hk2i⟩
    · intro b2 hb2
      rw [List.foldl_cons]
      rcases List.mem_cons.mp hb2 with rfl | hb3
      · obtain ⟨k1, hk1, hk1t, hk1i⟩ := upsert_self_dominated seen b2
        obtain ⟨k2, hk2, hk2t, hk2i⟩ := (ih (upsertByTitle seen b2)).1 k1 hk1
        exact ⟨k2, hk2, hk2t.trans hk1t, le_trans hk1i hk2i⟩
      · exact (ih (upsertByTitle seen b)).2 b2 hb3


/-!
The claims.
-/

theorem extract_eq_none_of_start_none {text : Str}
    (hs : searchMarker startKw text = none) : extract_book_content text = none := by
  unfold extract_book_content
  rw [hs]

theorem extract_eq_none_of_end_none {text : Str}
    (he : searchMarker endKw text = none) : extract_book_content text = none := by
  unfold extract_book_content
  cases hs : searchMarker startKw text <;> rw [he]

theorem extract_eq_of_both {text : Str} {sm em : Nat × Nat}
    (hs : searchMarker startKw text = some sm) (he : searchMarker endKw text = some em) :
    extract_book_content text =
      if em.1 ≤ sm.2 then none
      else some (pyStrip ((text.drop sm.2).take (em.1 - sm.2))) := by
  unfold extract_book_content
  rw [hs, he]

/-- Claim C2 (confirmed): `extract_book_content` returns no content exactly
when the text has no start-marker match, or no end-marker match, or the end
offset of the first start-marker match is at least the start offset of the
first end-marker match; otherwise it returns the text strictly between those
two offsets with surrounding whitespace stripped. -/
theorem extract_book_content_spec (text : Str) :
    (extract_book_content text = none ↔
      searchMarker startKw text = none ∨ searchMarker endKw text = none ∨
      ∃ sm em, searchMarker startKw text = some sm ∧ searchMarker endKw text = some em ∧
        em.1 ≤ sm.2) ∧
    (∀ sm em, searchMarker startKw text = some sm → searchMarker endKw text = some em →
      sm.2 < em.1 →
      extract_book_content text = some (pyStrip ((text.drop sm.2).take (em.1 - sm.2)))) := by
  constructor
  · constructor
    · intro h
      cases hs : searchMarker startKw text with
      | none => exact Or.inl rfl
      | some sm =>
        cases he : searchMarker endKw text with
        | none => exact Or.inr (Or.inl rfl)
        | some em =>
          rw [extract_eq_of_both hs he] at h
          by_cases hle : em.1 ≤ sm.2
          · exact Or.inr (Or.inr ⟨sm, em, rfl, rfl, hle⟩)
          · rw [if_neg hle] at h
            simp at h
    · rintro (h | h | ⟨sm, em, hs, he, hle⟩)
      · exact extract_eq_none_of_start_none h
      · exact extract_eq_none_of_end_none h
      · rw [extract_eq_of_both hs he, if_pos hle]
  · intro sm em hs he hlt
    rw [extract_eq_of_both hs he, if_neg (Nat.not_le.mpr hlt)]

/-- Claim C2 witness: a concrete text where both markers are found and the
extracted region is the stripped text between them. -/
theorem extract_book_content_spec_witness :
    extract_book_content "*START OF PROJECT GUTENBERG*ab*END OF PROJECT GUTENBERG*".toList
      = some (pyStrip ((("*START OF PROJECT GUTENBERG*ab*END OF PROJECT GUTENBERG*".toList).drop 28).take (30 - 28))) :=
  (extract_book_content_spec _).2 (0, 28) (30, 56) (by decide) (by decide) (by decide)

/-- Claim C4 (confirmed): every paragraph produced by `split_into_paragraphs`
has length at least `MIN_PARAGRAPH_LENGTH`, contains no configured noise
substring, and is whitespace-trimmed; and the output sequence is a
subsequence, in source order, of the trimmed blank-line-delimited segments of
the input. -/
theorem split_paragraphs_invariants (content : Str) :
    (∀ p ∈ split_into_paragraphs content,
      MIN_PARAGRAPH_LENGTH ≤ p.length ∧
      (∀ pat ∈ SKIP_PARAGRAPH_PATTERNS, ¬ pat <:+: p) ∧
      pyStrip p = p) ∧
    List.Sublist (split_into_paragraphs content) ((splitBlank content).map pyStrip) := by
  constructor
  · intro p hp
    obtain ⟨q, _, rfl, hlen, hskip⟩ := mem_split_into_paragraphs hp
    refine ⟨hlen, ?_, pyStrip_idem q⟩
    intro pat hpat hin
    have h1 := should_skip_eq_false_iff.mp hskip pat hpat
    exact h1 (hin.trans (pyStrip_isInfix q))
  · unfold split_into_paragraphs
    exact (List.filter_sublist _).map pyStrip

/-- Claim C4 witness: the invariants hold for the paragraph produced from a
concrete input. -/
theorem split_paragraphs_invariants_witness :
    MIN_PARAGRAPH_LENGTH ≤ ("abcd".toList).length ∧
    (∀ pat ∈ SKIP_PARAGRAPH_PATTERNS, ¬ pat <:+: "abcd".toList) ∧
    pyStrip "abcd".toList = "abcd".toList :=
  (split_paragraphs_invariants " abcd \n\nx".toList).1 "abcd".toList (by decide)

/-- Claim C1 counterexample: the filter test used by `search_books_by_author`
accepts a pair where the token-set-subset test of the spec rejects, so the
two are not equivalent: the normalized search name "ann" is a substring of
the normalized candidate "joanne" although the token "ann" is not a member
of the candidate's token set. -/
theorem author_match_not_token_subset :
    author_name_matches "Ann".toList "Joanne".toList = true ∧
    ¬ spec_token_subset_matches "Ann".toList "Joanne".toList := by
  exact ⟨by decide, by decide⟩

/-- Claim C1 amended (corrected): the author filter of
`search_books_by_author` returns true iff the normalized search name occurs
as a contiguous substring of the normalized candidate name (not a token-set
subset test); the two spec examples hold as stated. -/
theorem author_match_iff_substring :
    (∀ search candidate : Str,
      author_name_matches search candidate = true ↔
        normalize_author_name search <:+: normalize_author_name candidate) ∧
    author_name_matches "Dorothy L. Sayers".toList "Sayers, W. C. Berwick".toList = false ∧
    author_name_matches "Dorothy L. Sayers".toList
      "Sayers, Dorothy L. (Dorothy Leigh)".toList = true := by
  exact ⟨fun s c => containsSub_iff_isInfix, by decide, by decide⟩

/-- Claim C5 (confirmed): `parse_author_title` splits at the last occurrence
of the literal `" by "`, returning the trimmed text after it as author and
the trimmed text before it as title; when the separator is absent it returns
an empty author and the combined string unchanged; and both spec examples
hold. -/
theorem parse_author_title_spec (s : Str) :
    ((∃ i, " by ".toList <+: s.drop i) →
      ∃ i, " by ".toList <+: s.drop i ∧ (∀ j, " by ".toList <+: s.drop j → j ≤ i) ∧
        parse_author_title s = (pyStrip (s.drop (i + 4)), pyStrip (s.take i))) ∧
    ((¬ ∃ i, " by ".toList <+: s.drop i) → parse_author_title s = ([], s)) ∧
    parse_author_title "Stand by Me by Stephen King".toList
      = ("Stephen King".toList, "Stand by Me".toList) ∧
    parse_author_title "Untitled Work".toList = ([], "Untitled Work".toList) := by
  refine ⟨?_, ?_, by decide, by decide⟩
  · rintro ⟨i0, hi0⟩
    cases hL : lastOcc " by ".toList s with
    | none => exact absurd hi0 (lastOcc_none (by decide) hL i0)
    | some k =>
      obtain ⟨h1, h2⟩ := lastOcc_some (by decide) hL
      refine ⟨k, h1, h2, ?_⟩
      unfold parse_author_title
      rw [hL]
  · intro hno
    cases hL : lastOcc " by ".toList s with
    | none =>
      unfold parse_author_title
      rw [hL]
    | some k =>
      obtain ⟨h1, _⟩ := lastOcc_some (by decide) hL
      exact absurd ⟨k, h1⟩ hno

/-- Claim C5 witness: on a concrete title the separator is found and the
split is at its last occurrence. -/
theorem parse_author_title_spec_witness :
    ∃ i, " by ".toList <+: ("X by Y".toList).drop i ∧
      (∀ j, " by ".toList <+: ("X by Y".toList).drop j → j ≤ i) ∧
      parse_author_title "X by Y".toList
        = (pyStrip (("X by Y".toList).drop (i + 4)), pyStrip (("X by Y".toList).take i)) :=
  (parse_author_title_spec "X by Y".toList).1 ⟨1, by decide⟩

/-- Claim C6 counterexample: author-name normalization is not idempotent on
a name whose paren-truncated form has two commas — the comma reorder of
`split(",", 1)` leaves a comma in the tail, which a second pass reorders
again. -/
theorem normalize_not_idempotent_two_commas :
    normalize_author_name (normalize_author_name "Doyle, Arthur Conan, Sir".toList)
      ≠ normalize_author_name "Doyle, Arthur Conan, Sir".toList := by decide

/-- Claim C6 amended (corrected): `normalize_author_name` is idempotent on
every input whose paren-truncated form contains at most one comma (the
counterexample above shows idempotence fails with two commas). -/
theorem normalize_idem_of_at_most_one_comma (x : Str)
    (h : (parenCutStage x).count ',' ≤ 1) :
    normalize_author_name (normalize_author_name x) = normalize_author_name x := by
  have hparen : '(' ∉ normalize_author_name x := by
    show '(' ∉ lowerStage (collapseWsStage (replaceDotStage (commaReorderStage
      (parenCutStage x))))
    apply notMem_lower_collapse (by decide) (by decide)
    intro hmem
    rcases mem_replaceDot hmem with h1 | h1
    · rcases mem_commaReorder h1 with h2 | h2
      · exact paren_notMem_parenCut x h2
      · exact absurd h2 (by decide)
    · exact absurd h1 (by decide)
  have hcomma : ',' ∉ normalize_author_name x := by
    show ',' ∉ lowerStage (collapseWsStage (replaceDotStage (commaReorderStage
      (parenCutStage x))))
    apply notMem_lower_collapse (by decide) (by decide)
    intro hmem
    rcases mem_replaceDot hmem with h1 | h1
    · exact comma_notMem_commaReorder h h1
    · exact absurd h1 (by decide)
  have hdot : '.' ∉ normalize_author_name x := by
    show '.' ∉ lowerStage (collapseWsStage (replaceDotStage (commaReorderStage
      (parenCutStage x))))
    apply notMem_lower_collapse (by decide) (by decide)
    exact dot_notMem_replaceDot _
  show lowerStage (collapseWsStage (replaceDotStage (commaReorderStage
      (parenCutStage (normalize_author_name x))))) = normalize_author_name x
  rw [parenCut_eq_self hparen, commaReorder_eq_self hcomma, replaceDot_eq_self hdot]
  rw [show normalize_author_name x = lowerStage (collapseWsStage (replaceDotStage
      (commaReorderStage (parenCutStage x)))) from rfl]
  exact lower_collapse_idem _

/-- Claim C6 witness: idempotence holds on a concrete one-comma name. -/
theorem normalize_idem_witness :
    (parenCutStage "Sayers, Dorothy L. (Dorothy Leigh)".toList).count ',' ≤ 1 ∧
    normalize_author_name (normalize_author_name
        "Sayers, Dorothy L. (Dorothy Leigh)".toList)
      = normalize_author_name "Sayers, Dorothy L. (Dorothy Leigh)".toList :=
  ⟨by decide, normalize_idem_of_at_most_one_comma _ (by decide)⟩

/-- Claim C7 (confirmed): against a server whose every response carries a
continuation link, the pagination loop of `search_books_by_author` performs
exactly 100 fetches and stops; and for every server behaviour it never
performs more than 100 fetches. -/
theorem pagination_ceiling :
    (∀ (server : Nat → PageResp) (ns : Str), (∀ m, (server m).next = true) →
      (search_pages server ns 0 0 []).2 = 100) ∧
    (∀ (server : Nat → PageResp) (ns : Str), (search_pages server ns 0 0 []).2 ≤ 100) := by
  constructor
  · intro server ns hall
    have := (search_pages_count server ns 100 0 0 [] (by omega)).2 hall
    simpa using this
  · intro server ns
    have := (search_pages_count server ns 100 0 0 [] (by omega)).1
    simpa using this

/-- Claim C7 witness: the always-next server is fetched exactly 100 times. -/
theorem pagination_ceiling_witness :
    (search_pages (fun _ => ⟨[], true⟩) [] 0 0 []).2 = 100 :=
  pagination_ceiling.1 (fun _ => ⟨[], true⟩) [] (fun _ => rfl)

/-- Claim C8 (confirmed): deduplication keeps only input entries, exactly one
per distinct title, and the kept entry's identifier is maximal among the
input entries sharing its title; the three-results example with identifiers
100, 500, 200 collapses to the single id-500 entry. -/
theorem dedup_by_title_spec :
    (∀ books : List Book,
      (∀ k ∈ dedupByTitle books, k ∈ books) ∧
      ((dedupByTitle books).map Book.title).Nodup ∧
      (∀ b ∈ books, ∃ k ∈ dedupByTitle books, k.title = b.title ∧ b.id ≤ k.id)) ∧
    dedupByTitle [⟨100, "T".toList, []⟩, ⟨500, "T".toList, []⟩, ⟨200, "T".toList, []⟩]
      = [⟨500, "T".toList, []⟩] := by
  refine ⟨?_, by decide⟩
  intro books
  refine ⟨?_, ?_, ?_⟩
  · intro k hk
    rcases foldl_upsert_mem books [] k hk with h | h
    · simp at h
    · exact h
  · exact foldl_upsert_titles_nodup books [] (by simp)
  · exact (foldl_upsert_dominates books []).2

/-- Claim C8 witness: the dominance part applied to a concrete input. -/
theorem dedup_by_title_spec_witness :
    ∃ k ∈ dedupByTitle [⟨3, "A".toList, []⟩], k.title = "A".toList ∧ (3 : Int) ≤ k.id :=
  (dedup_by_title_spec.1 [⟨3, "A".toList, []⟩]).2.2 ⟨3, "A".toList, []⟩ (by decide)

/-- Claim C9 (confirmed): `parse_query_line` raises a syntax error for every
line containing both operators outside the comment part and for every line
whose non-comment part is empty; it accepts "term1 & term2 # note" with
terms ["term1","term2"], operator AND and comment "note", and rejects
"term1 & term2 | term3" with a mixed-operator error. -/
theorem parse_query_line_errors (line : Str) :
    (('&' ∈ nonCommentPart line ∧ '|' ∈ nonCommentPart line) →
      isErr (parse_query_line line) = true) ∧
    (nonCommentPart line = [] → isErr (parse_query_line line) = true) ∧
    parse_query_line "term1 & term2 # note".toList
      = .ok (["term1".toList, "term2".toList], .and, "note".toList) ∧
    isErr (parse_query_line "term1 & term2 | term3".toList) = true := by
  refine ⟨?_, ?_, by decide, by decide⟩
  · rintro ⟨hA, hO⟩
    have hAb : '&' ∈ queryBody line := mem_pyStrip_of_not_space (by decide) hA
    have hOb : '|' ∈ queryBody line := mem_pyStrip_of_not_space (by decide) hO
    unfold parse_query_line
    rw [if_neg (List.ne_nil_of_mem hAb), if_pos ⟨hAb, hOb⟩]
    rfl
  · intro h
    have hq : queryBody line = [] := by unfold queryBody; rw [h]; rfl
    unfold parse_query_line
    rw [hq, if_pos rfl]
    rfl

/-- Claim C9 witness: a concrete mixed-operator line is rejected. -/
theorem parse_query_line_errors_witness :
    isErr (parse_query_line "a & b | c".toList) = true :=
  (parse_query_line_errors "a & b | c".toList).1 ⟨by decide, by decide⟩

/-- Claim C10 (confirmed): on a single-operator line `parse_query_line`
silently drops empty term segments, returning the non-empty trimmed terms,
and raises a syntax error only when no non-empty term remains; in particular
"foo &" and "a & & b" parse successfully while "& &" is rejected. -/
theorem parse_query_line_drops_empty_terms (line : Str) :
    (('&' ∈ queryBody line ∧ '|' ∉ queryBody line) →
      parse_query_line line =
        if queryTerms '&' (queryBody line) = [] then
          Except.error "No search terms found".toList
        else Except.ok (queryTerms '&' (queryBody line), QueryOp.and, commentPart line)) ∧
    (('|' ∈ queryBody line ∧ '&' ∉ queryBody line) →
      parse_query_line line =
        if queryTerms '|' (queryBody line) = [] then
          Except.error "No search terms found".toList
        else Except.ok (queryTerms '|' (queryBody line), QueryOp.or, commentPart line)) ∧
    parse_query_line "foo &".toList = .ok (["foo".toList], .and, []) ∧
    parse_query_line "a & & b".toList = .ok (["a".toList, "b".toList], .and, []) ∧
    isErr (parse_query_line "& &".toList) = true := by
  refine ⟨?_, ?_, by decide, by decide, by decide⟩
  · rintro ⟨hA, hO⟩
    unfold parse_query_line
    rw [if_neg (List.ne_nil_of_mem hA), if_neg (by rintro ⟨_, h2⟩; exact hO h2), if_pos hA]
  · rintro ⟨hO, hA⟩
    unfold parse_query_line
    rw [if_neg (List.ne_nil_of_mem hO), if_neg (by rintro ⟨h1, _⟩; exact hA h1),
      if_neg hA, if_pos hO]

/-- Claim C10 witness: a concrete line with an empty middle segment parses to
its two non-empty trimmed terms. -/
theorem parse_query_line_drops_empty_terms_witness :
    parse_query_line "x & & y".toList =
      if queryTerms '&' (queryBody "x & & y".toList) = [] then
        Except.error "No search terms found".toList
      else Except.ok (queryTerms '&' (queryBody "x & & y".toList), QueryOp.and,
        commentPart "x & & y".toList) :=
  (parse_query_line_drops_empty_terms "x & & y".toList).1 ⟨by decide, by decide⟩

/-- Claim C3 counterexample: with a paragraph that carries leading
whitespace (trimmed length 4, no noise, single blank-line separation) the
pipeline returns the trimmed text, not a sequence equal to the original
paragraphs. -/
theorem extraction_round_trip_counterexample :
    extract_book_content ("*START OF PROJECT GUTENBERG*".toList ++ nl2 ++ " abcd".toList
      ++ nl2 ++ "*END OF PROJECT GUTENBERG*".toList) = some "abcd".toList ∧
    split_into_paragraphs "abcd".toList = ["abcd".toList] ∧
    ["abcd".toList] ≠ [" abcd".toList] := by
  exact ⟨by decide, by decide, by decide⟩

/-- Claim C3 amended (corrected): for a text consisting of a start marker,
a blank line, N paragraphs separated by single blank lines, a blank line and
an end marker — where each paragraph is whitespace-trimmed, at least
`MIN_PARAGRAPH_LENGTH` characters long, and contains no blank line and no
configured noise substring, and where the extractor's first start-marker
match ends exactly at the end of the start marker while its first end-marker
match starts exactly at the beginning of the end marker — extraction
followed by segmentation yields exactly the N original paragraphs in their
original order. -/
theorem extraction_round_trip (sm em : Str) (ps : List Str)
    (hstart : ∃ s, searchMarker startKw (sm ++ nl2 ++ joinSep nl2 ps ++ nl2 ++ em)
      = some (s, sm.length))
    (hend : ∃ e, searchMarker endKw (sm ++ nl2 ++ joinSep nl2 ps ++ nl2 ++ em)
      = some (sm.length + 2 + (joinSep nl2 ps).length + 2, e))
    (hps : ∀ p ∈ ps, pyStrip p = p ∧ MIN_PARAGRAPH_LENGTH ≤ p.length ∧
      ¬ nl2 <:+: p ∧ should_skip_paragraph p = false) :
    extract_book_content (sm ++ nl2 ++ joinSep nl2 ps ++ nl2 ++ em)
      = some (joinSep nl2 ps) ∧
    split_into_paragraphs (joinSep nl2 ps) = ps := by
  obtain ⟨s0, hs⟩ := hstart
  obtain ⟨e0, he⟩ := hend
  have hne : ∀ p ∈ ps, p ≠ [] := by
    intro p hp
    have h4 := (hps p hp).2.1
    intro hnil
    rw [hnil] at h4
    simp [MIN_PARAGRAPH_LENGTH] at h4
  constructor
  · rw [extract_eq_of_both hs he]
    rw [if_neg (by
      show ¬(sm.length + 2 + (joinSep nl2 ps).length + 2 ≤ sm.length)
      omega)]
    congr 1
    have hdrop : (sm ++ nl2 ++ joinSep nl2 ps ++ nl2 ++ em).drop sm.length
        = nl2 ++ joinSep nl2 ps ++ nl2 ++ em := by
      rw [show sm ++ nl2 ++ joinSep nl2 ps ++ nl2 ++ em
          = sm ++ (nl2 ++ joinSep nl2 ps ++ nl2 ++ em) from by simp [List.append_assoc]]
      exact List.drop_left sm _
    have harith : sm.length + 2 + (joinSep nl2 ps).length + 2 - sm.length
        = (nl2 ++ joinSep nl2 ps ++ nl2).length := by
      simp [nl2]
      omega
    rw [show ((sm ++ nl2 ++ joinSep nl2 ps ++ nl2 ++ em).drop sm.length)
        = nl2 ++ joinSep nl2 ps ++ nl2 ++ em from hdrop, harith]
    have htake : (nl2 ++ joinSep nl2 ps ++ nl2 ++ em).take ((nl2 ++ joinSep nl2 ps ++ nl2).length)
        = nl2 ++ joinSep nl2 ps ++ nl2 := by
      rw [show nl2 ++ joinSep nl2 ps ++ nl2 ++ em
          = (nl2 ++ joinSep nl2 ps ++ nl2) ++ em from by simp [List.append_assoc]]
      exact List.take_left _ _
    rw [htake]
    cases ps with
    | nil => decide
    | cons p ps2 =>
      exact pyStrip_wrap (by decide) (by decide)
        (pyStrip_joinSep (p :: ps2) (by simp) (fun q hq => ⟨hne q hq, (hps q hq).1⟩))
  · cases ps with
    | nil => decide
    | cons p ps2 =>
      unfold split_into_paragraphs
      rw [splitBlank_joinSep (p :: ps2) (by simp)
        (fun q hq => no_sep_pad (hps q hq).1 (hps q hq).2.2.1)]
      rw [List.filter_eq_self.mpr (by
        intro q hq
        rw [Bool.and_eq_true]
        refine ⟨decide_eq_true ?_, by simp [(hps q hq).2.2.2]⟩
        rw [(hps q hq).1]
        exact (hps q hq).2.1)]
      rw [show (p :: ps2).map pyStrip = (p :: ps2).map id from
        List.map_congr_left (fun q hq => (hps q hq).1)]
      exact List.map_id _

/-- Claim C3 witness: a concrete two-paragraph book round-trips. -/
theorem extraction_round_trip_witness :
    extract_book_content ("*START OF PROJECT GUTENBERG*".toList ++ nl2 ++
        joinSep nl2 ["Call me Ishmael.".toList, "It was cold.".toList] ++ nl2 ++
        "*END OF PROJECT GUTENBERG*".toList)
      = some (joinSep nl2 ["Call me Ishmael.".toList, "It was cold.".toList]) ∧
    split_into_paragraphs (joinSep nl2 ["Call me Ishmael.".toList, "It was cold.".toList])
      = ["Call me Ishmael.".toList, "It was cold.".toList] :=
  extraction_round_trip "*START OF PROJECT GUTENBERG*".toList
    "*END OF PROJECT GUTENBERG*".toList
    ["Call me Ishmael.".toList, "It was cold.".toList]
    ⟨0, by decide⟩ ⟨88, by decide⟩ (by decide)
